import Mathlib

/-!
Verification of the meridian merge engine (`src/merge.py`).

The engine reconciles a transcript (timestamped text segments) with a speaker
diarization track (timestamped speaker turns).  Times are Python floats used
only through `+ - * / max min` and comparisons; we embed them as rationals `ℚ`,
which share all the algebraic facts the claims rely on.  Python dicts with a
fixed key set are embedded as structures, Python lists as `List`.

Components embedded below, in source order:
  * `merge_nearby_diarization`   — diarization normalizer;
  * `align_whisper_segments_with_speakers` — segment aligner
    (its per-segment body is `alignOne`; the `speaker_times` dict is an
    insertion-ordered association list, matching Python dict semantics);
  * `merge_consecutive_speaker_segments`   — speaker-turn merger;
  * `find_overlaps`              — overlap detector;
  * `process_transcription`      — orchestrator.

A second, heap-aware model of the turn merger
(`merge_consecutive_speaker_segments_heap`) tracks the Python-level aliasing of
the `tokens` lists: `dict.copy()` is shallow, so the accumulator shares its
`tokens` list object with the input segment it was copied from, and
`current["tokens"].extend(...)` mutates that shared list in place.
-/

/-- A diarization turn: `{"start": float, "end": float, "speaker": str}`.
`end` is a Lean keyword, so the field is named `stop`. -/
structure DiarTurn where
  start : ℚ
  stop : ℚ
  speaker : String
deriving DecidableEq

/-- Tail of `merge_nearby_diarization`'s loop: `current` is the accumulator
(the Python code's `current`, an owned copy), the list argument is the
remaining input (`diarization[1:]` onward). -/
def merge_nearby_aux (gap_threshold : ℚ) (current : DiarTurn) :
    List DiarTurn → List DiarTurn
  | [] => [current]
  | segment :: rest =>
    if segment.speaker = current.speaker ∧
        segment.start - current.stop < gap_threshold then
      merge_nearby_aux gap_threshold { current with stop := segment.stop } rest
    else
      current :: merge_nearby_aux gap_threshold segment rest

/-- `merge_nearby_diarization(diarization, gap_threshold=0.5)` from
`src/merge.py`: merge adjacent turns of the same speaker when the gap
`segment["start"] - current["end"]` is strictly below the threshold. -/
def merge_nearby_diarization (diarization : List DiarTurn)
    (gap_threshold : ℚ) : List DiarTurn :=
  match diarization with
  | [] => []
  | d :: rest => merge_nearby_aux gap_threshold d rest

/-- When every remaining turn has the accumulator's speaker and every
consecutive gap is below the threshold, the whole run folds to a single turn
keeping the accumulator's start and taking the last turn's end. -/
lemma merge_nearby_aux_all_merge (gap_threshold : ℚ) :
    ∀ (ds : List DiarTurn) (d : DiarTurn) (hne : ds ≠ [])
      (hsp : ∀ x ∈ ds, x.speaker = d.speaker)
      (hgap : List.Chain (fun a b => b.start - a.stop < gap_threshold) d ds),
      merge_nearby_aux gap_threshold d ds =
        [⟨d.start, (ds.getLast hne).stop, d.speaker⟩] := by
  intro ds
  induction ds with
  | nil => intro d hne _ _; exact absurd rfl hne
  | cons x rest ih =>
    intro d hne hsp hgap
    rcases List.chain_cons.mp hgap with ⟨hx, hrest⟩
    have hxsp : x.speaker = d.speaker := hsp x (by simp)
    rw [merge_nearby_aux, if_pos ⟨hxsp, hx⟩]
    cases rest with
    | nil =>
      simp [merge_nearby_aux, List.getLast]
    | cons y rest2 =>
      have hne2 : y :: rest2 ≠ [] := by simp
      have hsp2 : ∀ z ∈ y :: rest2,
          z.speaker = ({ d with stop := x.stop } : DiarTurn).speaker := by
        intro z hz
        exact hsp z (by simp [hz])
      have hgap2 : List.Chain
          (fun a b => b.start - a.stop < gap_threshold)
          ({ d with stop := x.stop }) (y :: rest2) := by
        rcases List.chain_cons.mp hrest with ⟨hy, hrest2⟩
        exact List.chain_cons.mpr ⟨hy, hrest2⟩
      rw [ih { d with stop := x.stop } hne2 hsp2 hgap2]
      simp [List.getLast]

/-- C4: for a start-sorted run of same-speaker turns in which every turn is
within `gap_threshold` of its predecessor, the normalizer returns a single
turn whose interval runs from the first turn's start to the LAST turn's end,
and the output count is below the input count.  (The interval equals the union
of the folded turns only when the ends are nondecreasing, e.g. as a
consequence of start-sortedness plus non-nesting; the code keeps the last end,
not the maximum end — see the counterexample.) -/
theorem C4_normalizer_folds_run (gap_threshold : ℚ) (d : DiarTurn)
    (ds : List DiarTurn) (hne : ds ≠ [])
    (hsorted : List.Chain (fun a b => a.start ≤ b.start) d ds)
    (hsp : ∀ x ∈ ds, x.speaker = d.speaker)
    (hgap : List.Chain (fun a b => b.start - a.stop < gap_threshold) d ds) :
    merge_nearby_diarization (d :: ds) gap_threshold =
      [⟨d.start, (ds.getLast hne).stop, d.speaker⟩] ∧
    (merge_nearby_diarization (d :: ds) gap_threshold).length <
      (d :: ds).length := by
  have h := merge_nearby_aux_all_merge gap_threshold ds d hne hsp hgap
  have hpos : 0 < ds.length := List.length_pos.mpr hne
  constructor
  · simpa [merge_nearby_diarization] using h
  · simp only [merge_nearby_diarization, h, List.length_cons, List.length]
    omega

/-- C4 witness: three same-speaker turns with gaps 1/2 and 0, threshold 1,
fold to a single turn spanning 0 … 3, reducing the count from 3 to 1. -/
theorem C4_normalizer_folds_run_witness :
    merge_nearby_diarization
        [⟨0, 1, "A"⟩, ⟨3/2, 2, "A"⟩, ⟨2, 3, "A"⟩] 1 = [⟨0, 3, "A"⟩] ∧
    (merge_nearby_diarization
        [⟨0, 1, "A"⟩, ⟨3/2, 2, "A"⟩, ⟨2, 3, "A"⟩] 1).length < 3 := by
  have h := C4_normalizer_folds_run 1 ⟨0, 1, "A"⟩
    [⟨3/2, 2, "A"⟩, ⟨2, 3, "A"⟩] (by simp)
    (by refine List.chain_cons.mpr ⟨by norm_num, ?_⟩
        exact List.chain_cons.mpr ⟨by norm_num, List.Chain.nil⟩)
    (by intro x hx; fin_cases hx <;> rfl)
    (by refine List.chain_cons.mpr ⟨by norm_num, ?_⟩
        exact List.chain_cons.mpr ⟨by norm_num, List.Chain.nil⟩)
  simpa using h

/-- C4 counterexample: turns `[0,10]` and `[1,2]` of the same speaker are
start-sorted with gap `1 - 10 < 1/2`, so they fold; the code yields end `2`
(the last turn's end), while the union of the two intervals reaches `10`. -/
theorem C4_counterexample :
    ((1 : ℚ) - 10 < 1/2) ∧
    merge_nearby_diarization [⟨0, 10, "A"⟩, ⟨1, 2, "A"⟩] (1/2) =
      [⟨0, 2, "A"⟩] ∧
    merge_nearby_diarization [⟨0, 10, "A"⟩, ⟨1, 2, "A"⟩] (1/2) ≠
      [⟨0, 10, "A"⟩] := by
  refine ⟨by norm_num, ?_, ?_⟩ <;>
    simp [merge_nearby_diarization, merge_nearby_aux] <;> norm_num

/-- When no adjacent pair satisfies the fold condition relative to the
accumulator, the loop reproduces its input. -/
lemma merge_nearby_aux_no_merge (gap_threshold : ℚ) :
    ∀ (l : List DiarTurn) (a : DiarTurn),
      List.Chain (fun x y =>
        ¬(y.speaker = x.speaker ∧ y.start - x.stop < gap_threshold)) a l →
      merge_nearby_aux gap_threshold a l = a :: l := by
  intro l
  induction l with
  | nil => intro a _; rfl
  | cons x rest ih =>
    intro a hchain
    rcases List.chain_cons.mp hchain with ⟨hax, hrest⟩
    rw [merge_nearby_aux, if_neg hax, ih x hrest]

/-- C6: the normalizer folds an adjacent pair exactly when the speakers agree
and the gap `next.start - current.end` is strictly below the threshold (so
same-speaker pairs with zero or negative gap fold, different-speaker pairs
never fold); and an input in which no adjacent pair satisfies the condition is
returned unchanged. -/
theorem C6_normalizer_merge_iff (gap_threshold : ℚ) (a b : DiarTurn)
    (l : List DiarTurn)
    (hl : List.Chain' (fun x y =>
      ¬(y.speaker = x.speaker ∧ y.start - x.stop < gap_threshold)) l) :
    (merge_nearby_diarization [a, b] gap_threshold =
      if b.speaker = a.speaker ∧ b.start - a.stop < gap_threshold
      then [{ a with stop := b.stop }] else [a, b]) ∧
    merge_nearby_diarization l gap_threshold = l := by
  constructor
  · by_cases h : b.speaker = a.speaker ∧ b.start - a.stop < gap_threshold
    · rw [if_pos h]
      simp [merge_nearby_diarization, merge_nearby_aux, if_pos h]
    · rw [if_neg h]
      simp [merge_nearby_diarization, merge_nearby_aux, if_neg h]
  · cases l with
    | nil => rfl
    | cons x rest =>
      exact merge_nearby_aux_no_merge gap_threshold rest x hl

/-- C6 witness: contiguous turns of different speakers are kept as two turns,
and two same-speaker turns separated by a gap of `1 ≥ 1/2` are preserved
unchanged. -/
theorem C6_normalizer_merge_iff_witness :
    merge_nearby_diarization [⟨0, 1, "A"⟩, ⟨1, 2, "B"⟩] (1/2) =
      [⟨0, 1, "A"⟩, ⟨1, 2, "B"⟩] ∧
    merge_nearby_diarization [⟨0, 1, "A"⟩, ⟨2, 3, "A"⟩] (1/2) =
      [⟨0, 1, "A"⟩, ⟨2, 3, "A"⟩] := by
  have h := C6_normalizer_merge_iff (1/2) ⟨0, 1, "A"⟩ ⟨1, 2, "B"⟩
    [⟨0, 1, "A"⟩, ⟨2, 3, "A"⟩]
    (by refine List.chain'_cons.mpr ⟨?_, List.chain'_singleton _⟩
        rintro ⟨-, hgap⟩
        norm_num at hgap)
  refine ⟨?_, h.2⟩
  have h1 := h.1
  rw [if_neg (by rintro ⟨hsp, -⟩; exact absurd hsp (by decide))] at h1
  exact h1

/-- A transcript segment as consumed by the aligner:
`{"id", "start", "end", "text", "tokens", "avg_logprob", "no_speech_prob"}`
(the transcript input shape of §6; `seg.get("tokens", [])` etc. in the source
are defaults for keys the input contract already guarantees). -/
structure TranscriptSegment where
  id : Int
  start : ℚ
  stop : ℚ
  text : String
  tokens : List Int
  avg_logprob : ℚ
  no_speech_prob : ℚ
deriving DecidableEq

/-- An aligned segment: the dict built at the end of the aligner's loop. -/
structure AlignedSegment where
  id : Int
  speaker : String
  start : ℚ
  stop : ℚ
  text : String
  tokens : List Int
  confidence : ℚ
  avg_logprob : ℚ
  no_speech_prob : ℚ
deriving DecidableEq

/-- `overlap = max(0, min(seg["end"], d_seg["end"]) - max(seg["start"],
d_seg["start"]))` from the aligner's inner loop. -/
def overlapWith (seg : TranscriptSegment) (d_seg : DiarTurn) : ℚ :=
  max 0 (min seg.stop d_seg.stop - max seg.start d_seg.start)

/-- `speaker_times[speaker] = speaker_times.get(speaker, 0) + overlap`:
the `speaker_times` dict is an insertion-ordered association list; updating an
existing key keeps its position (Python dict semantics), a new key is
appended. -/
def updateTimes : List (String × ℚ) → String → ℚ → List (String × ℚ)
  | [], speaker, overlap => [(speaker, overlap)]
  | (s, t) :: rest, speaker, overlap =>
    if s = speaker then (s, t + overlap) :: rest
    else (s, t) :: updateTimes rest speaker overlap

/-- The aligner's inner loop over `diarization`, accumulating
`speaker_times`. -/
def speakerTimesAux (seg : TranscriptSegment) (acc : List (String × ℚ)) :
    List DiarTurn → List (String × ℚ)
  | [] => acc
  | d_seg :: rest =>
    speakerTimesAux seg
      (if 0 < overlapWith seg d_seg
       then updateTimes acc d_seg.speaker (overlapWith seg d_seg)
       else acc) rest

/-- The full `speaker_times` dict computed for one transcript segment. -/
def speakerTimes (seg : TranscriptSegment) (diarization : List DiarTurn) :
    List (String × ℚ) :=
  speakerTimesAux seg [] diarization

/-- One comparison step of Python's `max(speaker_times,
key=speaker_times.get)`: the current best is replaced only on a strictly
greater value, so the first maximum in insertion order wins ties. -/
def pickMax (best q : String × ℚ) : String × ℚ :=
  if best.2 < q.2 then q else best

/-- `max(speaker_times, key=speaker_times.get)` paired with its value;
`none` on the empty dict (the source guards with `if speaker_times`). -/
def maxBySnd : List (String × ℚ) → Option (String × ℚ)
  | [] => none
  | p :: rest => some (rest.foldl pickMax p)

/-- The aligner's loop body for one transcript segment: pick the speaker with
the greatest accumulated overlap and divide by the segment duration, or fall
back to `"unknown"` with confidence `0.0`. -/
def alignOne (seg : TranscriptSegment) (diarization : List DiarTurn) :
    AlignedSegment :=
  match maxBySnd (speakerTimes seg diarization) with
  | some best =>
    { id := seg.id, speaker := best.1, start := seg.start, stop := seg.stop,
      text := seg.text, tokens := seg.tokens,
      confidence := best.2 / (seg.stop - seg.start),
      avg_logprob := seg.avg_logprob, no_speech_prob := seg.no_speech_prob }
  | none =>
    { id := seg.id, speaker := "unknown", start := seg.start, stop := seg.stop,
      text := seg.text, tokens := seg.tokens, confidence := 0,
      avg_logprob := seg.avg_logprob, no_speech_prob := seg.no_speech_prob }

/-- `align_whisper_segments_with_speakers(whisper_segments, diarization)` from
`src/merge.py`: one aligned segment per transcript segment, in input order. -/
def align_whisper_segments_with_speakers
    (whisper_segments : List TranscriptSegment)
    (diarization : List DiarTurn) : List AlignedSegment :=
  whisper_segments.map (fun seg => alignOne seg diarization)

/-- Value stored under a key in the association list (`0` when absent,
matching `dict.get(key, 0)`). -/
def valueOf (k : String) : List (String × ℚ) → ℚ
  | [] => 0
  | (s, t) :: rest => if s = k then t else valueOf k rest

/-- Sum of all stored values. -/
def sumValues : List (String × ℚ) → ℚ
  | [] => 0
  | (_, t) :: rest => t + sumValues rest

/-- Total overlap of a transcript segment with all turns of one speaker, the
quantity the claims call the speaker's accumulated overlap. -/
def totalOverlap (spk : String) (seg : TranscriptSegment) :
    List DiarTurn → ℚ
  | [] => 0
  | d :: rest =>
    (if d.speaker = spk then overlapWith seg d else 0) +
      totalOverlap spk seg rest

/-- Total overlap of a transcript segment with every diarization turn. -/
def sumOverlaps (seg : TranscriptSegment) : List DiarTurn → ℚ
  | [] => 0
  | d :: rest => overlapWith seg d + sumOverlaps seg rest

lemma overlapWith_nonneg (seg : TranscriptSegment) (d : DiarTurn) :
    0 ≤ overlapWith seg d :=
  le_max_left _ _

lemma overlapWith_eq_zero_of_degenerate (seg : TranscriptSegment)
    (d : DiarTurn) (h : seg.stop ≤ seg.start) : overlapWith seg d = 0 := by
  have h1 : min seg.stop d.stop ≤ seg.stop := min_le_left _ _
  have h2 : seg.start ≤ max seg.start d.start := le_max_left _ _
  unfold overlapWith
  exact max_eq_left (by linarith)

lemma valueOf_updateTimes (k s : String) (ov : ℚ) :
    ∀ ts : List (String × ℚ),
      valueOf k (updateTimes ts s ov) =
        valueOf k ts + (if s = k then ov else 0) := by
  intro ts
  induction ts with
  | nil => simp [updateTimes, valueOf]
  | cons p rest ih =>
    obtain ⟨a, t⟩ := p
    rcases eq_or_ne a s with has | has
    · subst has
      rcases eq_or_ne a k with hak | hak
      · subst hak
        simp [updateTimes, valueOf]
      · simp [updateTimes, valueOf, hak]
    · rcases eq_or_ne a k with hak | hak
      · subst hak
        have hsk : ¬ s = a := fun h => has h.symm
        simp [updateTimes, valueOf, has, hsk]
      · simp [updateTimes, valueOf, has, hak, ih]

lemma sumValues_updateTimes (s : String) (ov : ℚ) :
    ∀ ts : List (String × ℚ),
      sumValues (updateTimes ts s ov) = sumValues ts + ov := by
  intro ts
  induction ts with
  | nil => simp [updateTimes, sumValues]
  | cons p rest ih =>
    obtain ⟨a, t⟩ := p
    by_cases has : a = s
    · simp only [updateTimes, if_pos has, sumValues]
      ring
    · simp only [updateTimes, if_neg has, sumValues, ih]
      ring

lemma updateTimes_pos (s : String) (ov : ℚ) (hov : 0 < ov) :
    ∀ ts : List (String × ℚ), (∀ p ∈ ts, 0 < p.2) →
      ∀ p ∈ updateTimes ts s ov, 0 < p.2 := by
  intro ts
  induction ts with
  | nil =>
    intro _ p hp
    simp only [updateTimes, List.mem_singleton] at hp
    simp [hp, hov]
  | cons q rest ih =>
    intro hts p hp
    obtain ⟨a, t⟩ := q
    by_cases has : a = s
    · simp only [updateTimes, if_pos has, List.mem_cons] at hp
      rcases hp with hp | hp
      · have := hts (a, t) (by simp)
        simp only [hp]
        simp only at this
        positivity
      · exact hts p (by simp [hp])
    · simp only [updateTimes, if_neg has, List.mem_cons] at hp
      rcases hp with hp | hp
      · exact hp ▸ hts (a, t) (by simp)
      · exact ih (fun q hq => hts q (by simp [hq])) p hp

lemma mem_keys_updateTimes (k s : String) (ov : ℚ) :
    ∀ ts : List (String × ℚ),
      (k ∈ (updateTimes ts s ov).map Prod.fst ↔
        k ∈ ts.map Prod.fst ∨ k = s) := by
  intro ts
  induction ts with
  | nil => simp [updateTimes, eq_comm]
  | cons p rest ih =>
    obtain ⟨a, t⟩ := p
    rcases eq_or_ne a s with has | has
    · subst has
      rw [show updateTimes ((a, t) :: rest) a ov = (a, t + ov) :: rest from by
        simp [updateTimes]]
      simp only [List.map_cons, List.mem_cons]
      tauto
    · simp only [updateTimes, if_neg has, List.map_cons, List.mem_cons, ih]
      tauto

lemma keys_nodup_updateTimes (s : String) (ov : ℚ) :
    ∀ ts : List (String × ℚ), (ts.map Prod.fst).Nodup →
      ((updateTimes ts s ov).map Prod.fst).Nodup := by
  intro ts
  induction ts with
  | nil => intro _; simp [updateTimes]
  | cons p rest ih =>
    intro hnd
    obtain ⟨a, t⟩ := p
    simp only [List.map_cons, List.nodup_cons] at hnd
    by_cases has : a = s
    · simp only [updateTimes, if_pos has, List.map_cons, List.nodup_cons]
      exact hnd
    · simp only [updateTimes, if_neg has, List.map_cons, List.nodup_cons]
      refine ⟨?_, ih hnd.2⟩
      rw [mem_keys_updateTimes]
      rintro (h | h)
      · exact hnd.1 h
      · exact has h

lemma valueOf_of_mem (k : String) (v : ℚ) :
    ∀ ts : List (String × ℚ), (ts.map Prod.fst).Nodup →
      (k, v) ∈ ts → valueOf k ts = v := by
  intro ts
  induction ts with
  | nil => intro _ h; simp at h
  | cons p rest ih =>
    intro hnd hmem
    obtain ⟨a, t⟩ := p
    simp only [List.map_cons, List.nodup_cons] at hnd
    simp only [List.mem_cons, Prod.mk.injEq] at hmem
    rcases hmem with ⟨hk, hv⟩ | hmem
    · simp [valueOf, hk, hv]
    · have hak : ¬ a = k := by
        intro h
        exact hnd.1 (h ▸ (List.mem_map.mpr ⟨(k, v), hmem, rfl⟩))
      simp only [valueOf, if_neg hak]
      exact ih hnd.2 hmem

lemma speakerTimesAux_valueOf (seg : TranscriptSegment) (k : String) :
    ∀ (diar : List DiarTurn) (acc : List (String × ℚ)),
      valueOf k (speakerTimesAux seg acc diar) =
        valueOf k acc + totalOverlap k seg diar := by
  intro diar
  induction diar with
  | nil => intro acc; simp [speakerTimesAux, totalOverlap]
  | cons d rest ih =>
    intro acc
    simp only [speakerTimesAux, totalOverlap]
    rw [ih]
    by_cases hov : 0 < overlapWith seg d
    · rw [if_pos hov, valueOf_updateTimes]
      by_cases hk : d.speaker = k
      · rw [if_pos hk]; ring
      · rw [if_neg hk]; ring
    · have h0 : overlapWith seg d = 0 :=
        le_antisymm (not_lt.mp hov) (overlapWith_nonneg seg d)
      rw [if_neg hov, h0]
      simp

lemma speakerTimesAux_sumValues (seg : TranscriptSegment) :
    ∀ (diar : List DiarTurn) (acc : List (String × ℚ)),
      sumValues (speakerTimesAux seg acc diar) =
        sumValues acc + sumOverlaps seg diar := by
  intro diar
  induction diar with
  | nil => intro acc; simp [speakerTimesAux, sumOverlaps]
  | cons d rest ih =>
    intro acc
    simp only [speakerTimesAux, sumOverlaps]
    rw [ih]
    by_cases hov : 0 < overlapWith seg d
    · rw [if_pos hov, sumValues_updateTimes]; ring
    · have h0 : overlapWith seg d = 0 :=
        le_antisymm (not_lt.mp hov) (overlapWith_nonneg seg d)
      rw [if_neg hov, h0]
      ring

lemma speakerTimesAux_pos (seg : TranscriptSegment) :
    ∀ (diar : List DiarTurn) (acc : List (String × ℚ)),
      (∀ p ∈ acc, 0 < p.2) →
      ∀ p ∈ speakerTimesAux seg acc diar, 0 < p.2 := by
  intro diar
  induction diar with
  | nil => intro acc hacc; simpa [speakerTimesAux] using hacc
  | cons d rest ih =>
    intro acc hacc
    simp only [speakerTimesAux]
    by_cases hov : 0 < overlapWith seg d
    · rw [if_pos hov]
      exact ih _ (updateTimes_pos d.speaker _ hov acc hacc)
    · rw [if_neg hov]
      exact ih _ hacc

lemma speakerTimesAux_keys_nodup (seg : TranscriptSegment) :
    ∀ (diar : List DiarTurn) (acc : List (String × ℚ)),
      (acc.map Prod.fst).Nodup →
      ((speakerTimesAux seg acc diar).map Prod.fst).Nodup := by
  intro diar
  induction diar with
  | nil => intro acc hacc; simpa [speakerTimesAux] using hacc
  | cons d rest ih =>
    intro acc hacc
    simp only [speakerTimesAux]
    by_cases hov : 0 < overlapWith seg d
    · rw [if_pos hov]
      exact ih _ (keys_nodup_updateTimes d.speaker _ acc hacc)
    · rw [if_neg hov]
      exact ih _ hacc

lemma speakerTimesAux_mem_keys (seg : TranscriptSegment) :
    ∀ (diar : List DiarTurn) (acc : List (String × ℚ)) (k : String),
      k ∈ (speakerTimesAux seg acc diar).map Prod.fst →
      k ∈ acc.map Prod.fst ∨ ∃ d ∈ diar, d.speaker = k := by
  intro diar
  induction diar with
  | nil => intro acc k h; exact Or.inl (by simpa [speakerTimesAux] using h)
  | cons d rest ih =>
    intro acc k h
    simp only [speakerTimesAux] at h
    rcases ih _ k h with h' | h'
    · by_cases hov : 0 < overlapWith seg d
      · rw [if_pos hov] at h'
        rcases (mem_keys_updateTimes k d.speaker _ acc).mp h' with h'' | h''
        · exact Or.inl h''
        · exact Or.inr ⟨d, by simp, h''.symm⟩
      · rw [if_neg hov] at h'
        exact Or.inl h'
    · rcases h' with ⟨d', hd', hk⟩
      exact Or.inr ⟨d', by simp [hd'], hk⟩

lemma speakerTimesAux_no_overlap (seg : TranscriptSegment) :
    ∀ (diar : List DiarTurn) (acc : List (String × ℚ)),
      (∀ d ∈ diar, ¬ 0 < overlapWith seg d) →
      speakerTimesAux seg acc diar = acc := by
  intro diar
  induction diar with
  | nil => intro acc _; rfl
  | cons d rest ih =>
    intro acc h
    simp only [speakerTimesAux]
    rw [if_neg (h d (by simp))]
    exact ih acc (fun d' hd' => h d' (by simp [hd']))

lemma speakerTimes_empty_of_degenerate (seg : TranscriptSegment)
    (diar : List DiarTurn) (h : seg.stop ≤ seg.start) :
    speakerTimes seg diar = [] := by
  apply speakerTimesAux_no_overlap
  intro d _
  rw [overlapWith_eq_zero_of_degenerate seg d h]
  exact lt_irrefl 0

lemma totalOverlap_nonneg (spk : String) (seg : TranscriptSegment) :
    ∀ diar : List DiarTurn, 0 ≤ totalOverlap spk seg diar := by
  intro diar
  induction diar with
  | nil => simp [totalOverlap]
  | cons d rest ih =>
    simp only [totalOverlap]
    have h := overlapWith_nonneg seg d
    by_cases hk : d.speaker = spk
    · rw [if_pos hk]; linarith
    · rw [if_neg hk]; linarith

lemma overlapWith_le_totalOverlap (seg : TranscriptSegment) :
    ∀ (diar : List DiarTurn) (d : DiarTurn), d ∈ diar →
      overlapWith seg d ≤ totalOverlap d.speaker seg diar := by
  intro diar
  induction diar with
  | nil => intro d h; simp at h
  | cons x rest ih =>
    intro d hd
    simp only [totalOverlap]
    rcases List.mem_cons.mp hd with h | h
    · subst h
      rw [if_pos rfl]
      have := totalOverlap_nonneg d.speaker seg rest
      linarith
    · have h1 := ih d h
      by_cases hk : x.speaker = d.speaker
      · rw [if_pos hk]
        have := overlapWith_nonneg seg x
        linarith
      · rw [if_neg hk]
        linarith

lemma valueOf_le_of_forall (k : String) (bv : ℚ) :
    ∀ ts : List (String × ℚ), (∀ q ∈ ts, q.2 ≤ bv) → 0 ≤ bv →
      valueOf k ts ≤ bv := by
  intro ts
  induction ts with
  | nil => intro _ h; simpa [valueOf] using h
  | cons p rest ih =>
    intro hts hbv
    obtain ⟨a, t⟩ := p
    simp only [valueOf]
    by_cases hak : a = k
    · rw [if_pos hak]
      exact hts (a, t) (by simp)
    · rw [if_neg hak]
      exact ih (fun q hq => hts q (by simp [hq])) hbv

lemma foldl_pickMax_mem :
    ∀ (l : List (String × ℚ)) (p : String × ℚ),
      l.foldl pickMax p = p ∨ l.foldl pickMax p ∈ l := by
  intro l
  induction l with
  | nil => intro p; exact Or.inl rfl
  | cons q rest ih =>
    intro p
    simp only [List.foldl_cons]
    rcases ih (pickMax p q) with h | h
    · rw [h]
      unfold pickMax
      split_ifs
      · exact Or.inr (by simp)
      · exact Or.inl rfl
    · exact Or.inr (by simp [h])

lemma foldl_pickMax_ge_init :
    ∀ (l : List (String × ℚ)) (p : String × ℚ),
      p.2 ≤ (l.foldl pickMax p).2 := by
  intro l
  induction l with
  | nil => intro p; exact le_refl _
  | cons q rest ih =>
    intro p
    simp only [List.foldl_cons]
    refine le_trans ?_ (ih (pickMax p q))
    unfold pickMax
    split_ifs with h
    · exact le_of_lt h
    · exact le_refl _

lemma foldl_pickMax_ge_mem :
    ∀ (l : List (String × ℚ)) (p q : String × ℚ), q ∈ l →
      q.2 ≤ (l.foldl pickMax p).2 := by
  intro l
  induction l with
  | nil => intro p q h; simp at h
  | cons r rest ih =>
    intro p q hq
    simp only [List.foldl_cons]
    rcases List.mem_cons.mp hq with h | h
    · subst h
      refine le_trans ?_ (foldl_pickMax_ge_init rest (pickMax p q))
      unfold pickMax
      split_ifs with h
      · exact le_refl _
      · exact not_lt.mp h
    · exact ih (pickMax p r) q h

lemma maxBySnd_eq_none (ts : List (String × ℚ)) :
    maxBySnd ts = none ↔ ts = [] := by
  cases ts <;> simp [maxBySnd]

lemma maxBySnd_spec (ts : List (String × ℚ)) (p : String × ℚ)
    (h : maxBySnd ts = some p) : p ∈ ts ∧ ∀ q ∈ ts, q.2 ≤ p.2 := by
  cases ts with
  | nil => simp [maxBySnd] at h
  | cons r rest =>
    simp only [maxBySnd, Option.some.injEq] at h
    subst h
    constructor
    · rcases foldl_pickMax_mem rest r with h | h
      · rw [h]; simp
      · simp [h]
    · intro q hq
      rcases List.mem_cons.mp hq with h | h
      · exact h ▸ foldl_pickMax_ge_init rest r
      · exact foldl_pickMax_ge_mem rest r q h

/-- C5: a transcript segment with zero duration, or with no positive overlap
against any diarization turn, is aligned to speaker `"unknown"` with
confidence `0.0`; its `speaker_times` dict is empty, so the branch that
divides by the segment duration is not taken (no division by zero). -/
theorem C5_zero_duration_or_no_overlap (segs : List TranscriptSegment)
    (diarization : List DiarTurn) (i : ℕ) (hi : i < segs.length)
    (h : segs[i].stop = segs[i].start ∨
         ∀ d ∈ diarization, ¬ 0 < overlapWith segs[i] d) :
    (align_whisper_segments_with_speakers segs diarization)[i]? =
      some (alignOne segs[i] diarization) ∧
    (alignOne segs[i] diarization).speaker = "unknown" ∧
    (alignOne segs[i] diarization).confidence = 0 ∧
    speakerTimes segs[i] diarization = [] := by
  have hempty : speakerTimes segs[i] diarization = [] := by
    rcases h with h | h
    · exact speakerTimes_empty_of_degenerate _ _ (le_of_eq h)
    · exact speakerTimesAux_no_overlap _ _ _ h
  refine ⟨?_, ?_, ?_, hempty⟩
  · simp [align_whisper_segments_with_speakers, List.getElem?_map,
      List.getElem?_eq_getElem hi]
  · simp [alignOne, hempty, maxBySnd]
  · simp [alignOne, hempty, maxBySnd]

/-- C5 witness: a zero-duration segment `[5,5]` inside a turn of speaker "A"
gets speaker `"unknown"`, confidence `0`, and an empty `speaker_times`. -/
theorem C5_zero_duration_or_no_overlap_witness :
    (align_whisper_segments_with_speakers [⟨0, 5, 5, "hi", [], 0, 0⟩]
        [⟨0, 10, "A"⟩])[0]? =
      some (alignOne ⟨0, 5, 5, "hi", [], 0, 0⟩ [⟨0, 10, "A"⟩]) ∧
    (alignOne ⟨0, 5, 5, "hi", [], 0, 0⟩ [⟨0, 10, "A"⟩]).speaker =
      "unknown" ∧
    (alignOne ⟨0, 5, 5, "hi", [], 0, 0⟩ [⟨0, 10, "A"⟩]).confidence = 0 ∧
    speakerTimes ⟨0, 5, 5, "hi", [], 0, 0⟩ [⟨0, 10, "A"⟩] = [] :=
  C5_zero_duration_or_no_overlap [⟨0, 5, 5, "hi", [], 0, 0⟩] [⟨0, 10, "A"⟩]
    0 (by norm_num) (Or.inl rfl)

lemma alignOne_passthrough (seg : TranscriptSegment) (diar : List DiarTurn) :
    (alignOne seg diar).id = seg.id ∧
    (alignOne seg diar).start = seg.start ∧
    (alignOne seg diar).stop = seg.stop ∧
    (alignOne seg diar).text = seg.text := by
  cases hmb : maxBySnd (speakerTimes seg diar) <;> simp [alignOne, hmb]

lemma alignOne_argmax (seg : TranscriptSegment) (diar : List DiarTurn)
    (hex : ∃ d ∈ diar, 0 < overlapWith seg d) :
    (∃ d ∈ diar, d.speaker = (alignOne seg diar).speaker) ∧
    0 < totalOverlap (alignOne seg diar).speaker seg diar ∧
    ∀ d ∈ diar, totalOverlap d.speaker seg diar ≤
      totalOverlap (alignOne seg diar).speaker seg diar := by
  obtain ⟨d0, hd0, hov0⟩ := hex
  have hvall : ∀ k, valueOf k (speakerTimes seg diar) =
      totalOverlap k seg diar := by
    intro k
    unfold speakerTimes
    rw [speakerTimesAux_valueOf]
    simp [valueOf]
  have htsne : speakerTimes seg diar ≠ [] := by
    intro hnil
    have hv := hvall d0.speaker
    rw [hnil] at hv
    simp only [valueOf] at hv
    have hle := overlapWith_le_totalOverlap seg diar d0 hd0
    rw [← hv] at hle
    exact absurd (lt_of_lt_of_le hov0 hle) (lt_irrefl 0)
  obtain ⟨best, hbest⟩ : ∃ p, maxBySnd (speakerTimes seg diar) = some p := by
    cases hmb : maxBySnd (speakerTimes seg diar) with
    | none => exact absurd ((maxBySnd_eq_none _).mp hmb) htsne
    | some p => exact ⟨p, rfl⟩
  obtain ⟨hmem, hmax⟩ := maxBySnd_spec _ best hbest
  have hnd : ((speakerTimes seg diar).map Prod.fst).Nodup :=
    speakerTimesAux_keys_nodup seg diar [] (by simp)
  have hpos : ∀ p ∈ speakerTimes seg diar, 0 < p.2 :=
    speakerTimesAux_pos seg diar [] (by simp)
  have hbv : valueOf best.1 (speakerTimes seg diar) = best.2 :=
    valueOf_of_mem best.1 best.2 _ hnd (by simpa using hmem)
  have hspk : (alignOne seg diar).speaker = best.1 := by
    simp [alignOne, hbest]
  refine ⟨?_, ?_, ?_⟩
  · have hk : best.1 ∈ (speakerTimes seg diar).map Prod.fst :=
      List.mem_map.mpr ⟨best, hmem, rfl⟩
    rcases speakerTimesAux_mem_keys seg diar [] best.1 hk with h | h
    · simp at h
    · rw [hspk]; exact h
  · rw [hspk, ← hvall best.1, hbv]
    exact hpos best hmem
  · intro d hd
    rw [hspk, ← hvall best.1, hbv, ← hvall d.speaker]
    exact valueOf_le_of_forall d.speaker best.2 _
      (fun q hq => hmax q hq) (le_of_lt (hpos best hmem))

/-- C7: the aligner returns exactly one aligned segment per transcript
segment, in input order, passing `id`, `start`, `end`, `text` through; and
whenever some diarization turn overlaps the segment positively, the assigned
speaker appears in the diarization and its accumulated overlap
(`totalOverlap`, the sum of `max(0, min(ends) - max(starts))` over that
speaker's turns) is positive and maximal among all speakers. -/
theorem C7_aligner_order_and_argmax (segs : List TranscriptSegment)
    (diarization : List DiarTurn) :
    (align_whisper_segments_with_speakers segs diarization).length =
      segs.length ∧
    ∀ i, (hi : i < segs.length) →
      (align_whisper_segments_with_speakers segs diarization)[i]? =
        some (alignOne segs[i] diarization) ∧
      ((alignOne segs[i] diarization).id = segs[i].id ∧
        (alignOne segs[i] diarization).start = segs[i].start ∧
        (alignOne segs[i] diarization).stop = segs[i].stop ∧
        (alignOne segs[i] diarization).text = segs[i].text) ∧
      ((∃ d ∈ diarization, 0 < overlapWith segs[i] d) →
        (∃ d ∈ diarization,
          d.speaker = (alignOne segs[i] diarization).speaker) ∧
        0 < totalOverlap (alignOne segs[i] diarization).speaker
              segs[i] diarization ∧
        ∀ d ∈ diarization,
          totalOverlap d.speaker segs[i] diarization ≤
            totalOverlap (alignOne segs[i] diarization).speaker
              segs[i] diarization) := by
  refine ⟨by simp [align_whisper_segments_with_speakers], ?_⟩
  intro i hi
  refine ⟨?_, alignOne_passthrough _ _, fun hex => alignOne_argmax _ _ hex⟩
  simp [align_whisper_segments_with_speakers, List.getElem?_map,
    List.getElem?_eq_getElem hi]

/-- C7 witness: segment `[0,10]` against turns `A:[0,6]`, `B:[6,10]`; the
aligner emits one segment, the chosen speaker's total overlap is positive and
at least speaker "B"'s total overlap. -/
theorem C7_aligner_order_and_argmax_witness :
    (align_whisper_segments_with_speakers [⟨0, 0, 10, "hi", [], 0, 0⟩]
        [⟨0, 6, "A"⟩, ⟨6, 10, "B"⟩]).length = 1 ∧
    0 < totalOverlap
        (alignOne ⟨0, 0, 10, "hi", [], 0, 0⟩
          [⟨0, 6, "A"⟩, ⟨6, 10, "B"⟩]).speaker
        ⟨0, 0, 10, "hi", [], 0, 0⟩ [⟨0, 6, "A"⟩, ⟨6, 10, "B"⟩] ∧
    totalOverlap "B" ⟨0, 0, 10, "hi", [], 0, 0⟩
        [⟨0, 6, "A"⟩, ⟨6, 10, "B"⟩] ≤
      totalOverlap
        (alignOne ⟨0, 0, 10, "hi", [], 0, 0⟩
          [⟨0, 6, "A"⟩, ⟨6, 10, "B"⟩]).speaker
        ⟨0, 0, 10, "hi", [], 0, 0⟩ [⟨0, 6, "A"⟩, ⟨6, 10, "B"⟩] := by
  have h := C7_aligner_order_and_argmax [⟨0, 0, 10, "hi", [], 0, 0⟩]
    [⟨0, 6, "A"⟩, ⟨6, 10, "B"⟩]
  have h0 := h.2 0 (by norm_num)
  have hex : ∃ d ∈ ([⟨0, 6, "A"⟩, ⟨6, 10, "B"⟩] : List DiarTurn),
      0 < overlapWith ⟨0, 0, 10, "hi", [], 0, 0⟩ d :=
    ⟨⟨0, 6, "A"⟩, by simp, by norm_num [overlapWith, min_def, max_def]⟩
  have harg := h0.2.2 hex
  exact ⟨h.1, harg.2.1, harg.2.2 ⟨6, 10, "B"⟩ (by simp)⟩

lemma chain_stop_le_start (rest : List DiarTurn) :
    ∀ d : DiarTurn, List.Chain (fun a b => a.stop ≤ b.start) d rest →
      (∀ x ∈ d :: rest, x.start ≤ x.stop) →
      ∀ x ∈ rest, d.stop ≤ x.start := by
  induction rest with
  | nil => intro d _ _ x hx; simp at hx
  | cons r rs ih =>
    intro d hchain hvalid x hx
    rcases List.chain_cons.mp hchain with ⟨hdr, hrest⟩
    rcases List.mem_cons.mp hx with h | h
    · exact h ▸ hdr
    · have hr := ih r hrest (fun y hy => hvalid y (by simp [List.mem_cons.mp hy])) x h
      have hrr : r.start ≤ r.stop := hvalid r (by simp)
      linarith

lemma sumOverlaps_le_aux (seg : TranscriptSegment) :
    ∀ (l : List DiarTurn) (p : ℚ),
      (∀ x ∈ l, x.start ≤ x.stop) →
      List.Chain' (fun a b => a.stop ≤ b.start) l →
      (∀ x ∈ l, p ≤ x.start) →
      sumOverlaps seg l ≤ max 0 (seg.stop - max seg.start p) := by
  intro l
  induction l with
  | nil =>
    intro p _ _ _
    simp only [sumOverlaps]
    exact le_max_left _ _
  | cons d rest ih =>
    intro p hvalid hchain hp
    have hrest_ge : ∀ x ∈ rest, d.stop ≤ x.start :=
      chain_stop_le_start rest d hchain hvalid
    have hrest_chain : List.Chain' (fun a b => a.stop ≤ b.start) rest :=
      List.Chain'.tail hchain
    have hihyp := ih d.stop
      (fun x hx => hvalid x (by simp [hx])) hrest_chain hrest_ge
    simp only [sumOverlaps]
    have hpd : p ≤ d.start := hp d (by simp)
    have hds : d.start ≤ d.stop := hvalid d (by simp)
    have key : overlapWith seg d + max 0 (seg.stop - max seg.start d.stop) ≤
        max 0 (seg.stop - max seg.start p) := by
      simp only [overlapWith, max_def, min_def]
      split_ifs <;> linarith
    linarith

lemma foldr_min_le_init (a : ℚ) :
    ∀ l : List ℚ, l.foldr min a ≤ a := by
  intro l
  induction l with
  | nil => exact le_refl a
  | cons x rest ih =>
    simp only [List.foldr_cons]
    exact le_trans (min_le_right _ _) ih

lemma foldr_min_le_mem (a : ℚ) :
    ∀ (l : List ℚ) (x : ℚ), x ∈ l → l.foldr min a ≤ x := by
  intro l
  induction l with
  | nil => intro x hx; simp at hx
  | cons y rest ih =>
    intro x hx
    simp only [List.foldr_cons]
    rcases List.mem_cons.mp hx with h | h
    · exact h ▸ min_le_left _ _
    · exact le_trans (min_le_right _ _) (ih x h)

/-- For a valid (end ≥ start), chained-disjoint diarization track, the total
overlap with a transcript segment never exceeds the segment duration. -/
lemma sumOverlaps_le (seg : TranscriptSegment) (l : List DiarTurn)
    (hvalid : ∀ x ∈ l, x.start ≤ x.stop)
    (hchain : List.Chain' (fun a b => a.stop ≤ b.start) l) :
    sumOverlaps seg l ≤ max 0 (seg.stop - seg.start) := by
  have hple : (l.map DiarTurn.start).foldr min seg.start ≤ seg.start :=
    foldr_min_le_init seg.start (l.map DiarTurn.start)
  have hpx : ∀ x ∈ l, (l.map DiarTurn.start).foldr min seg.start ≤ x.start :=
    fun x hx => foldr_min_le_mem seg.start (l.map DiarTurn.start) x.start
      (List.mem_map.mpr ⟨x, hx, rfl⟩)
  have h := sumOverlaps_le_aux seg l ((l.map DiarTurn.start).foldr min seg.start)
    hvalid hchain hpx
  rwa [max_eq_left hple] at h

lemma sumValues_nonneg :
    ∀ ts : List (String × ℚ), (∀ p ∈ ts, 0 ≤ p.2) → 0 ≤ sumValues ts := by
  intro ts
  induction ts with
  | nil => intro _; simp [sumValues]
  | cons p rest ih =>
    intro h
    obtain ⟨a, t⟩ := p
    simp only [sumValues]
    have h1 : (0 : ℚ) ≤ t := h (a, t) (by simp)
    have h2 := ih (fun q hq => h q (by simp [hq]))
    linarith

lemma snd_le_sumValues (q : String × ℚ) :
    ∀ ts : List (String × ℚ), (∀ p ∈ ts, 0 ≤ p.2) → q ∈ ts →
      q.2 ≤ sumValues ts := by
  intro ts
  induction ts with
  | nil => intro _ h; simp at h
  | cons p rest ih =>
    intro hts hq
    obtain ⟨a, t⟩ := p
    simp only [sumValues]
    rcases List.mem_cons.mp hq with h | h
    · have h2 := sumValues_nonneg rest (fun r hr => hts r (by simp [hr]))
      rw [h]
      simp only
      linarith
    · have h1 : (0 : ℚ) ≤ t := hts (a, t) (by simp)
      have h2 := ih (fun r hr => hts r (by simp [hr])) h
      linarith

/-- A speaker's accumulated overlap is the plain overlap sum over that
speaker's own turns (the input filtered to that speaker, in input order). -/
lemma totalOverlap_eq_sumOverlaps_filter (spk : String)
    (seg : TranscriptSegment) :
    ∀ l : List DiarTurn,
      totalOverlap spk seg l =
        sumOverlaps seg (l.filter (fun d => d.speaker = spk)) := by
  intro l
  induction l with
  | nil => rfl
  | cons d rest ih =>
    by_cases h : d.speaker = spk
    · rw [totalOverlap, if_pos h, List.filter_cons_of_pos (by simp [h]),
        sumOverlaps, ih]
    · rw [totalOverlap, if_neg h, List.filter_cons_of_neg (by simp [h]), ih]
      ring

/-- The confidence computed for one transcript segment is never negative:
either the `"unknown"` branch yields `0.0`, or a positive accumulated
overlap is divided by a positive duration. -/
lemma alignOne_confidence_nonneg (seg : TranscriptSegment)
    (diar : List DiarTurn) : 0 ≤ (alignOne seg diar).confidence := by
  cases hmb : maxBySnd (speakerTimes seg diar) with
  | none => simp [alignOne, hmb]
  | some best =>
    obtain ⟨hmem, -⟩ := maxBySnd_spec _ best hmb
    have hpos : ∀ p ∈ speakerTimes seg diar, 0 < p.2 :=
      speakerTimesAux_pos seg diar [] (by simp)
    have hbpos : 0 < best.2 := hpos best hmem
    have htsne : speakerTimes seg diar ≠ [] := by
      intro h
      rw [h] at hmem
      simp at hmem
    have hdur : seg.start < seg.stop := by
      by_contra hcon
      exact htsne
        (speakerTimes_empty_of_degenerate seg diar (not_lt.mp hcon))
    have hconf : (alignOne seg diar).confidence =
        best.2 / (seg.stop - seg.start) := by
      simp [alignOne, hmb]
    rw [hconf]
    exact div_nonneg (le_of_lt hbpos) (by linarith)

/-- The confidence is at most `1` whenever every turn is well formed and no
speaker's own turns overlap one another; different speakers may overlap each
other freely, since the winning value sums only the winner's turns. -/
lemma alignOne_confidence_le_one (seg : TranscriptSegment)
    (diar : List DiarTurn)
    (hvalid : ∀ d ∈ diar, d.start ≤ d.stop)
    (hdisj : ∀ spk : String, List.Chain' (fun a b => a.stop ≤ b.start)
      (diar.filter (fun d => d.speaker = spk))) :
    (alignOne seg diar).confidence ≤ 1 := by
  cases hmb : maxBySnd (speakerTimes seg diar) with
  | none => norm_num [alignOne, hmb]
  | some best =>
    obtain ⟨hmem, -⟩ := maxBySnd_spec _ best hmb
    have hpos : ∀ p ∈ speakerTimes seg diar, 0 < p.2 :=
      speakerTimesAux_pos seg diar [] (by simp)
    have hbpos : 0 < best.2 := hpos best hmem
    have htsne : speakerTimes seg diar ≠ [] := by
      intro h
      rw [h] at hmem
      simp at hmem
    have hdur : seg.start < seg.stop := by
      by_contra hcon
      exact htsne
        (speakerTimes_empty_of_degenerate seg diar (not_lt.mp hcon))
    have hnd : ((speakerTimes seg diar).map Prod.fst).Nodup :=
      speakerTimesAux_keys_nodup seg diar [] (by simp)
    have hbv : valueOf best.1 (speakerTimes seg diar) = best.2 :=
      valueOf_of_mem best.1 best.2 _ hnd (by simpa using hmem)
    have hvall : valueOf best.1 (speakerTimes seg diar) =
        totalOverlap best.1 seg diar := by
      unfold speakerTimes
      rw [speakerTimesAux_valueOf]
      simp [valueOf]
    have hfval : ∀ d ∈ diar.filter (fun d => d.speaker = best.1),
        d.start ≤ d.stop :=
      fun d hd => hvalid d (List.mem_of_mem_filter hd)
    have hso := sumOverlaps_le seg
      (diar.filter (fun d => d.speaker = best.1)) hfval (hdisj best.1)
    have hmax0 : max 0 (seg.stop - seg.start) = seg.stop - seg.start :=
      max_eq_right (by linarith)
    have hbound : best.2 ≤ seg.stop - seg.start := by
      rw [← hbv, hvall, totalOverlap_eq_sumOverlaps_filter]
      rw [hmax0] at hso
      exact hso
    have hconf : (alignOne seg diar).confidence =
        best.2 / (seg.stop - seg.start) := by
      simp [alignOne, hmb]
    rw [hconf, div_le_one (by linarith)]
    exact hbound

/-- C1 (amended): every aligned segment's confidence is at least `0.0`,
unconditionally; and `0.0 ≤ confidence ≤ 1.0` holds provided each
diarization turn is well formed (`start ≤ end`) and no speaker's own turns
overlap one another (each speaker's turns, in input order, are
chained-disjoint) — turns of DIFFERENT speakers may still overlap freely.
Only when one speaker owns several mutually overlapping turns do their
overlaps double-count and push the quotient past `1` — see the
counterexample. -/
theorem C1_confidence_bounds (segs : List TranscriptSegment)
    (diarization : List DiarTurn) :
    (∀ a ∈ align_whisper_segments_with_speakers segs diarization,
      0 ≤ a.confidence) ∧
    ((∀ d ∈ diarization, d.start ≤ d.stop) →
     (∀ spk : String, List.Chain' (fun a b => a.stop ≤ b.start)
        (diarization.filter (fun d => d.speaker = spk))) →
     ∀ a ∈ align_whisper_segments_with_speakers segs diarization,
       0 ≤ a.confidence ∧ a.confidence ≤ 1) := by
  constructor
  · intro a ha
    rcases List.mem_map.mp ha with ⟨seg, -, rfl⟩
    exact alignOne_confidence_nonneg seg diarization
  · intro hvalid hdisj a ha
    rcases List.mem_map.mp ha with ⟨seg, -, rfl⟩
    exact ⟨alignOne_confidence_nonneg seg diarization,
      alignOne_confidence_le_one seg diarization hvalid hdisj⟩

/-- C1 witness: segment `[0,10]` against the cross-speaker-overlapping turns
`A:[0,6]`, `B:[4,10]` (each speaker's own turns disjoint) yields a
confidence within `[0,1]` (it evaluates to `3/5`). -/
theorem C1_confidence_bounds_witness :
    0 ≤ (alignOne ⟨0, 0, 10, "hi", [], 0, 0⟩
          [⟨0, 6, "A"⟩, ⟨4, 10, "B"⟩]).confidence ∧
    (alignOne ⟨0, 0, 10, "hi", [], 0, 0⟩
        [⟨0, 6, "A"⟩, ⟨4, 10, "B"⟩]).confidence ≤ 1 :=
  (C1_confidence_bounds [⟨0, 0, 10, "hi", [], 0, 0⟩]
    [⟨0, 6, "A"⟩, ⟨4, 10, "B"⟩]).2
    (by intro d hd; fin_cases hd <;> norm_num)
    (by intro spk
        by_cases hA : "A" = spk <;> by_cases hB : "B" = spk
        · exact absurd (hA.trans hB.symm) (by decide)
        · simp [List.filter_cons, hA, hB]
        · simp [List.filter_cons, hA, hB]
        · simp [List.filter_cons, hA, hB])
    (alignOne ⟨0, 0, 10, "hi", [], 0, 0⟩ [⟨0, 6, "A"⟩, ⟨4, 10, "B"⟩])
    (by simp [align_whisper_segments_with_speakers])

/-- C1 counterexample: segment `[0,10]` against two identical turns
`A:[0,10]` (one speaker, mutually overlapping turns): speaker "A" accumulates
`10 + 10 = 20` of overlap and the confidence is `20 / 10 = 2 > 1`. -/
theorem C1_counterexample :
    (align_whisper_segments_with_speakers [⟨0, 0, 10, "hi", [], 0, 0⟩]
        [⟨0, 10, "A"⟩, ⟨0, 10, "A"⟩]).map AlignedSegment.confidence = [2] ∧
    ¬ ((2 : ℚ) ≤ 1) := by
  constructor
  · norm_num [align_whisper_segments_with_speakers, alignOne, speakerTimes,
      speakerTimesAux, updateTimes, maxBySnd, pickMax, overlapWith,
      min_def, max_def]
  · norm_num

/-- A merged speaker turn: an aligned segment plus the `whisper_ids` key the
merger adds. -/
structure MergedSegment where
  id : Int
  speaker : String
  start : ℚ
  stop : ℚ
  text : String
  tokens : List Int
  confidence : ℚ
  avg_logprob : ℚ
  no_speech_prob : ℚ
  whisper_ids : List Int
deriving DecidableEq

/-- `current = seg.copy(); current["whisper_ids"] = [current["id"]]`
(value semantics; see the heap model below for the aliasing of `tokens`). -/
def toMergedSegment (seg : AlignedSegment) : MergedSegment :=
  { id := seg.id, speaker := seg.speaker, start := seg.start,
    stop := seg.stop, text := seg.text, tokens := seg.tokens,
    confidence := seg.confidence, avg_logprob := seg.avg_logprob,
    no_speech_prob := seg.no_speech_prob, whisper_ids := [seg.id] }

/-- The merger's same-speaker fold step: replace `end`, append text with one
space, extend `whisper_ids` and `tokens`, and halve the sum of the two
confidences. -/
def mergeFold (current : MergedSegment) (seg : AlignedSegment) :
    MergedSegment :=
  { current with
    stop := seg.stop,
    text := current.text ++ " " ++ seg.text,
    whisper_ids := current.whisper_ids ++ [seg.id],
    tokens := current.tokens ++ seg.tokens,
    confidence := (current.confidence + seg.confidence) / 2 }

/-- Tail of `merge_consecutive_speaker_segments`'s loop. -/
def merge_consecutive_aux (current : MergedSegment) :
    List AlignedSegment → List MergedSegment
  | [] => [current]
  | seg :: rest =>
    if seg.speaker = current.speaker then
      merge_consecutive_aux (mergeFold current seg) rest
    else
      current :: merge_consecutive_aux (toMergedSegment seg) rest

/-- `merge_consecutive_speaker_segments(segments)` from `src/merge.py`. -/
def merge_consecutive_speaker_segments :
    List AlignedSegment → List MergedSegment
  | [] => []
  | seg :: rest => merge_consecutive_aux (toMergedSegment seg) rest

lemma merge_consecutive_aux_all_same :
    ∀ (rest : List AlignedSegment) (current : MergedSegment),
      (∀ x ∈ rest, x.speaker = current.speaker) →
      merge_consecutive_aux current rest = [rest.foldl mergeFold current] := by
  intro rest
  induction rest with
  | nil => intro current _; rfl
  | cons x rs ih =>
    intro current h
    rw [merge_consecutive_aux, if_pos (h x (by simp)), List.foldl_cons]
    exact ih (mergeFold current x) (fun y hy => h y (by simp [hy]))

/-- C3: folding a run of same-speaker segments is exactly the left fold of
`mergeFold`, whose step produces text `accumulator ++ " " ++ next`, tokens and
`whisper_ids` concatenated in order, `end` replaced by the next segment's end,
and confidence `(accumulator + next) / 2` — the pairwise recurrence, not the
true mean (the witness runs confidences 0.9, 0.1, 0.5 to the value 0.5). -/
theorem C3_turn_merger_fold (s0 : AlignedSegment)
    (rest : List AlignedSegment) (current : MergedSegment)
    (seg : AlignedSegment) (h : ∀ x ∈ rest, x.speaker = s0.speaker) :
    merge_consecutive_speaker_segments (s0 :: rest) =
      [rest.foldl mergeFold (toMergedSegment s0)] ∧
    (mergeFold current seg).text = current.text ++ " " ++ seg.text ∧
    (mergeFold current seg).tokens = current.tokens ++ seg.tokens ∧
    (mergeFold current seg).whisper_ids =
      current.whisper_ids ++ [seg.id] ∧
    (mergeFold current seg).stop = seg.stop ∧
    (mergeFold current seg).confidence =
      (current.confidence + seg.confidence) / 2 := by
  refine ⟨?_, rfl, rfl, rfl, rfl, rfl⟩
  rw [merge_consecutive_speaker_segments]
  exact merge_consecutive_aux_all_same rest (toMergedSegment s0)
    (fun x hx => h x hx)

/-- C3 witness: same-speaker segments with confidences 0.9, 0.1, 0.5 merge to
one turn of confidence ((0.9+0.1)/2 + 0.5)/2 = 0.5, with concatenated text
and accumulated ids. -/
theorem C3_turn_merger_fold_witness :
    (merge_consecutive_speaker_segments
        [⟨0, "A", 0, 1, "a", [], 9/10, 0, 0⟩,
         ⟨1, "A", 1, 2, "b", [], 1/10, 0, 0⟩,
         ⟨2, "A", 2, 3, "c", [], 1/2, 0, 0⟩]).map
      MergedSegment.confidence = [1/2] ∧
    (merge_consecutive_speaker_segments
        [⟨0, "A", 0, 1, "a", [], 9/10, 0, 0⟩,
         ⟨1, "A", 1, 2, "b", [], 1/10, 0, 0⟩,
         ⟨2, "A", 2, 3, "c", [], 1/2, 0, 0⟩]).map
      MergedSegment.text = ["a b c"] ∧
    (merge_consecutive_speaker_segments
        [⟨0, "A", 0, 1, "a", [], 9/10, 0, 0⟩,
         ⟨1, "A", 1, 2, "b", [], 1/10, 0, 0⟩,
         ⟨2, "A", 2, 3, "c", [], 1/2, 0, 0⟩]).map
      MergedSegment.whisper_ids = [[0, 1, 2]] := by
  have h := C3_turn_merger_fold ⟨0, "A", 0, 1, "a", [], 9/10, 0, 0⟩
    [⟨1, "A", 1, 2, "b", [], 1/10, 0, 0⟩, ⟨2, "A", 2, 3, "c", [], 1/2, 0, 0⟩]
    (toMergedSegment ⟨0, "A", 0, 1, "a", [], 9/10, 0, 0⟩)
    ⟨1, "A", 1, 2, "b", [], 1/10, 0, 0⟩
    (by intro x hx; fin_cases hx <;> rfl)
  refine ⟨?_, ?_, ?_⟩ <;>
    · rw [h.1]
      norm_num [mergeFold, toMergedSegment]
      try rfl

/-- An overlap region: `{"start", "end", "speakers"}` with the speakers
stored as a sorted, de-duplicated list. -/
structure OverlapRegion where
  start : ℚ
  stop : ℚ
  speakers : List String
deriving DecidableEq

/-- `sorted(list(set([seg1["speaker"], seg2["speaker"]])))` for the two
speakers of a pair. -/
def speakersPair (s1 s2 : String) : List String :=
  if s1 = s2 then [s1] else if s1 < s2 then [s1, s2] else [s2, s1]

/-- The region dict appended for a qualifying pair. -/
def overlapRegionOf (seg1 seg2 : DiarTurn) : OverlapRegion :=
  ⟨max seg1.start seg2.start, min seg1.stop seg2.stop,
   speakersPair seg1.speaker seg2.speaker⟩

/-- Inner loop of `find_overlaps`: `seg1` against every later turn. -/
def overlapsFor (seg1 : DiarTurn) (min_duration : ℚ) :
    List DiarTurn → List OverlapRegion
  | [] => []
  | seg2 :: rest =>
    (if min_duration <
        min seg1.stop seg2.stop - max seg1.start seg2.start
     then [overlapRegionOf seg1 seg2] else []) ++
      overlapsFor seg1 min_duration rest

/-- `find_overlaps(diarization, min_duration=0.1)` from `src/merge.py`:
all-pairs scan over `i < j`. -/
def find_overlaps (diarization : List DiarTurn) (min_duration : ℚ) :
    List OverlapRegion :=
  match diarization with
  | [] => []
  | seg1 :: rest =>
    overlapsFor seg1 min_duration rest ++ find_overlaps rest min_duration

/-- All ordered pairs `(i, j)` with `i < j` of a list, in scan order. -/
def pairsOf {α : Type} : List α → List (α × α)
  | [] => []
  | x :: xs => xs.map (fun y => (x, y)) ++ pairsOf xs

lemma overlapsFor_eq_filterMap (seg1 : DiarTurn) (min_duration : ℚ) :
    ∀ rest : List DiarTurn,
      overlapsFor seg1 min_duration rest =
        rest.filterMap (fun seg2 =>
          if min_duration <
              min seg1.stop seg2.stop - max seg1.start seg2.start
          then some (overlapRegionOf seg1 seg2) else none) := by
  intro rest
  induction rest with
  | nil => rfl
  | cons y ys ih =>
    rw [overlapsFor, List.filterMap_cons, ih]
    split_ifs <;> simp

/-- C8: the overlap detector emits, for every ordered pair `(i, j)` with
`i < j`, a region exactly when the pair's overlap length strictly exceeds
`min_duration` (a pair overlapping by exactly `min_duration` is excluded);
each region spans the pair's overlap interval and carries the sorted,
de-duplicated set of the two turns' speakers. -/
theorem C8_overlap_detector (min_duration : ℚ) (l : List DiarTurn)
    (t1 t2 : DiarTurn) :
    find_overlaps l min_duration =
      (pairsOf l).filterMap (fun p =>
        if min_duration < min p.1.stop p.2.stop - max p.1.start p.2.start
        then some (overlapRegionOf p.1 p.2) else none) ∧
    (min_duration < min t1.stop t2.stop - max t1.start t2.start →
      find_overlaps [t1, t2] min_duration = [overlapRegionOf t1 t2]) ∧
    (min t1.stop t2.stop - max t1.start t2.start = min_duration →
      find_overlaps [t1, t2] min_duration = []) ∧
    (overlapRegionOf t1 t2).start = max t1.start t2.start ∧
    (overlapRegionOf t1 t2).stop = min t1.stop t2.stop ∧
    (overlapRegionOf t1 t2).speakers.Sorted (· < ·) ∧
    (overlapRegionOf t1 t2).speakers.Nodup ∧
    (∀ x, x ∈ (overlapRegionOf t1 t2).speakers ↔
      x = t1.speaker ∨ x = t2.speaker) := by
  refine ⟨?_, ?_, ?_, rfl, rfl, ?_, ?_, ?_⟩
  · induction l with
    | nil => rfl
    | cons x xs ih =>
      rw [find_overlaps, pairsOf, List.filterMap_append, ih,
        List.filterMap_map, overlapsFor_eq_filterMap]
      rfl
  · intro hcond
    simp [find_overlaps, overlapsFor, if_pos hcond]
  · intro hcond
    have : ¬ min_duration <
        min t1.stop t2.stop - max t1.start t2.start := by
      rw [hcond]
      exact lt_irrefl _
    simp [find_overlaps, overlapsFor, if_neg this]
  · show (speakersPair t1.speaker t2.speaker).Sorted (· < ·)
    rcases eq_or_ne t1.speaker t2.speaker with he | he
    · rw [show speakersPair t1.speaker t2.speaker = [t1.speaker] from by
        unfold speakersPair; rw [if_pos he]]
      exact List.sorted_singleton _
    · by_cases hlt : t1.speaker < t2.speaker
      · rw [show speakersPair t1.speaker t2.speaker =
            [t1.speaker, t2.speaker] from by
          unfold speakersPair; rw [if_neg he, if_pos hlt]]
        exact List.sorted_cons.mpr ⟨fun b hb => by
          rw [List.mem_singleton] at hb; rw [hb]; exact hlt,
          List.sorted_singleton _⟩
      · have hgt : t2.speaker < t1.speaker :=
          lt_of_le_of_ne (not_lt.mp hlt) (Ne.symm he)
        rw [show speakersPair t1.speaker t2.speaker =
            [t2.speaker, t1.speaker] from by
          unfold speakersPair; rw [if_neg he, if_neg hlt]]
        exact List.sorted_cons.mpr ⟨fun b hb => by
          rw [List.mem_singleton] at hb; rw [hb]; exact hgt,
          List.sorted_singleton _⟩
  · show (speakersPair t1.speaker t2.speaker).Nodup
    rcases eq_or_ne t1.speaker t2.speaker with he | he
    · rw [show speakersPair t1.speaker t2.speaker = [t1.speaker] from by
        unfold speakersPair; rw [if_pos he]]
      exact List.nodup_singleton _
    · by_cases hlt : t1.speaker < t2.speaker
      · rw [show speakersPair t1.speaker t2.speaker =
            [t1.speaker, t2.speaker] from by
          unfold speakersPair; rw [if_neg he, if_pos hlt]]
        simp [List.nodup_cons, he]
      · rw [show speakersPair t1.speaker t2.speaker =
            [t2.speaker, t1.speaker] from by
          unfold speakersPair; rw [if_neg he, if_neg hlt]]
        simp [List.nodup_cons, Ne.symm he]
  · intro x
    show x ∈ speakersPair t1.speaker t2.speaker ↔ _
    rcases eq_or_ne t1.speaker t2.speaker with he | he
    · rw [show speakersPair t1.speaker t2.speaker = [t1.speaker] from by
        unfold speakersPair; rw [if_pos he]]
      simp [he]
    · by_cases hlt : t1.speaker < t2.speaker
      · rw [show speakersPair t1.speaker t2.speaker =
            [t1.speaker, t2.speaker] from by
          unfold speakersPair; rw [if_neg he, if_pos hlt]]
        simp [List.mem_cons]
      · rw [show speakersPair t1.speaker t2.speaker =
            [t2.speaker, t1.speaker] from by
          unfold speakersPair; rw [if_neg he, if_neg hlt]]
        simp [List.mem_cons, or_comm]

/-- C8 witness: turns `A:[0,2]` and `B:[1,3]` overlap by `1 > 0.1` and yield
one region `[1,2]` with speakers `["A","B"]`; turns `A:[0,2]` and
`B:[1.9,3]` overlap by exactly `0.1` and yield no region. -/
theorem C8_overlap_detector_witness :
    find_overlaps [⟨0, 2, "A"⟩, ⟨1, 3, "B"⟩] (1/10) =
      [⟨1, 2, ["A", "B"]⟩] ∧
    find_overlaps [⟨0, 2, "A"⟩, ⟨19/10, 3, "B"⟩] (1/10) = [] := by
  have h1 := (C8_overlap_detector (1/10) [] ⟨0, 2, "A"⟩ ⟨1, 3, "B"⟩).2.1
    (by norm_num [min_def, max_def])
  have h2 :=
    (C8_overlap_detector (1/10) [] ⟨0, 2, "A"⟩ ⟨19/10, 3, "B"⟩).2.2.1
    (by norm_num [min_def, max_def])
  refine ⟨?_, h2⟩
  rw [h1]
  norm_num [overlapRegionOf, min_def, max_def]
  unfold speakersPair
  have hAB : "A" < "B" := by
    rw [String.lt_iff_toList_lt]
    decide
  rw [if_neg (by decide), if_pos hAB]

/-- Heap of Python list objects holding token sequences; an address is an
index into the store. -/
abbrev TokenStore := List (List Int)

/-- An aligned-segment dict whose `"tokens"` value is a reference into a
`TokenStore` (Python lists are heap objects shared by reference). -/
structure SegRef where
  id : Int
  speaker : String
  start : ℚ
  stop : ℚ
  text : String
  tokens : Nat
  confidence : ℚ
  avg_logprob : ℚ
  no_speech_prob : ℚ

/-- A merged-turn dict in the heap model. -/
structure MergedRef where
  id : Int
  speaker : String
  start : ℚ
  stop : ℚ
  text : String
  tokens : Nat
  confidence : ℚ
  avg_logprob : ℚ
  no_speech_prob : ℚ
  whisper_ids : List Int

/-- `current = seg.copy(); current["whisper_ids"] = [current["id"]]`:
`dict.copy()` is SHALLOW, so the copy's `"tokens"` entry is the same heap
address as the input segment's. -/
def toMergedRef (seg : SegRef) : MergedRef :=
  { id := seg.id, speaker := seg.speaker, start := seg.start,
    stop := seg.stop, text := seg.text, tokens := seg.tokens,
    confidence := seg.confidence, avg_logprob := seg.avg_logprob,
    no_speech_prob := seg.no_speech_prob, whisper_ids := [seg.id] }

/-- Loop of `merge_consecutive_speaker_segments` in the heap model:
`current["tokens"].extend(seg.get("tokens", []))` mutates the token list at
the accumulator's address — which, after the shallow copy, is owned by the
caller's input segment. -/
def mcssAux (store : TokenStore) (current : MergedRef) :
    List SegRef → TokenStore × List MergedRef
  | [] => (store, [current])
  | seg :: rest =>
    if seg.speaker = current.speaker then
      mcssAux
        (store.set current.tokens
          (store.getD current.tokens [] ++ store.getD seg.tokens []))
        { current with
          stop := seg.stop,
          text := current.text ++ " " ++ seg.text,
          whisper_ids := current.whisper_ids ++ [seg.id],
          confidence := (current.confidence + seg.confidence) / 2 } rest
    else
      match mcssAux store (toMergedRef seg) rest with
      | (store2, merged) => (store2, current :: merged)

/-- `merge_consecutive_speaker_segments(segments)` in the heap model: returns
the final token store next to the merged turns. -/
def merge_consecutive_speaker_segments_heap (store : TokenStore) :
    List SegRef → TokenStore × List MergedRef
  | [] => (store, [])
  | seg :: rest => mcssAux store (toMergedRef seg) rest

/-- C2: the turn merger mutates a caller-owned input. Two same-speaker
segments whose token lists live at addresses 0 and 1 holding `[1]` and `[2]`:
after the call, the list at address 0 — the tokens of the CALLER's first
input segment, aliased by the shallow `dict.copy()` — has become `[1, 2]`.
The store is no longer the input store, refuting the no-mutation contract
for `merge_consecutive_speaker_segments`. -/
theorem C2_merger_mutates_input_tokens :
    (merge_consecutive_speaker_segments_heap [[1], [2]]
        [⟨0, "A", 0, 1, "x", 0, 1, 0, 0⟩,
         ⟨1, "A", 1, 2, "y", 1, 1, 0, 0⟩]).1 = [[1, 2], [2]] ∧
    ([[1, 2], [2]] : TokenStore) ≠ [[1], [2]] := by
  constructor
  · rfl
  · simp

/-- A word-level timestamp entry `{word, start, end}` (pure passthrough). -/
structure Word where
  word : String
  start : ℚ
  stop : ℚ
deriving DecidableEq

/-- The transcript object consumed by the orchestrator; every top-level key
is optional because the source reads each with `transcription.get(key,
default)`. -/
structure Transcription where
  segments : Option (List TranscriptSegment)
  duration : Option ℚ
  language : Option String
  text : Option String
  words : Option (List Word)

/-- The `metadata` sub-dict of the combined result. -/
structure Metadata where
  duration : ℚ
  language : String
  original_text : String
deriving DecidableEq

/-- Display metadata for one speaker (`color` is the `None` placeholder). -/
structure SpeakerMeta where
  label : String
  color : Option String
deriving DecidableEq

/-- The orchestrator's `segments` output: merged turns when
`merge_speakers` is true, otherwise the raw aligned segments. -/
inductive OutSegments where
  | merged : List MergedSegment → OutSegments
  | plain : List AlignedSegment → OutSegments
deriving DecidableEq

/-- Speaker of each output segment, in order (the `seg["speaker"]`
generator of the source). -/
def outSpeakers : OutSegments → List String
  | OutSegments.merged l => l.map MergedSegment.speaker
  | OutSegments.plain l => l.map AlignedSegment.speaker

/-- The terminal combined-result object (the dict literal of the source;
Python's insertion-ordered `speakers` dict is an association list). -/
structure CombinedResult where
  metadata : Metadata
  speakers : List (String × SpeakerMeta)
  segments : OutSegments
  overlaps : List OverlapRegion
  words : List Word

/-- Python `str.replace(pat, rep)` over character lists (left-to-right,
non-overlapping, case-sensitive), with fuel for structural recursion; the
fuel never runs out when it starts at the subject's length, since every step
consumes at least one character. -/
def replaceAllFuel (pat rep : List Char) : Nat → List Char → List Char
  | 0, s => s
  | _ + 1, [] => []
  | fuel + 1, c :: cs =>
    if pat.isPrefixOf (c :: cs) ∧ pat ≠ [] then
      rep ++ replaceAllFuel pat rep fuel ((c :: cs).drop pat.length)
    else
      c :: replaceAllFuel pat rep fuel cs

/-- `s.replace(pat, rep)` for a nonempty pattern. -/
def replaceAll (pat rep s : List Char) : List Char :=
  replaceAllFuel pat rep s.length s

/-- `speaker.replace("SPEAKER_", "speaker_").lower()` on character lists. -/
def labelChars (s : List Char) : List Char :=
  (replaceAll "SPEAKER_".data "speaker_".data s).map Char.toLower

/-- The label derivation of the source:
`speaker.replace("SPEAKER_", "speaker_").lower()`. -/
def labelOf (speaker : String) : String :=
  String.mk (labelChars speaker.data)

/-- Case-insensitive replacement, stated from the spec's words ("replacing a
fixed identifying prefix (case-insensitively)"): an occurrence matches when
its lowercase image equals the pattern's lowercase image. -/
def replaceAllCIFuel (pat rep : List Char) : Nat → List Char → List Char
  | 0, s => s
  | _ + 1, [] => []
  | fuel + 1, c :: cs =>
    if ((c :: cs).take pat.length).map Char.toLower =
        pat.map Char.toLower ∧ pat ≠ [] then
      rep ++ replaceAllCIFuel pat rep fuel ((c :: cs).drop pat.length)
    else
      c :: replaceAllCIFuel pat rep fuel cs

/-- The spec's label transformation (§6): the fixed prefix `"SPEAKER_"`
replaced case-insensitively by `"speaker_"`, then the result lowercased. -/
def specLabelChars (s : List Char) : List Char :=
  (replaceAllCIFuel "SPEAKER_".data "speaker_".data s.length s).map
    Char.toLower

/-- The spec's label transformation on strings. -/
def specLabel (speaker : String) : String :=
  String.mk (specLabelChars speaker.data)

lemma replaceAllFuel_map_toLower (pat rep : List Char)
    (hpr : rep.map Char.toLower = pat.map Char.toLower) :
    ∀ (fuel : Nat) (s : List Char),
      (replaceAllFuel pat rep fuel s).map Char.toLower =
        s.map Char.toLower := by
  intro fuel
  induction fuel with
  | zero => intro s; rfl
  | succ f ih =>
    intro s
    cases s with
    | nil => rfl
    | cons c cs =>
      rw [replaceAllFuel]
      by_cases hcond : pat.isPrefixOf (c :: cs) ∧ pat ≠ []
      · rw [if_pos hcond]
        obtain ⟨t, ht⟩ := List.isPrefixOf_iff_prefix.mp hcond.1
        have hdrop : (c :: cs).drop pat.length = t := by
          rw [← ht]
          exact List.drop_left _ _
        calc (rep ++
              replaceAllFuel pat rep f ((c :: cs).drop pat.length)).map
              Char.toLower
            = rep.map Char.toLower ++
                (replaceAllFuel pat rep f
                    ((c :: cs).drop pat.length)).map Char.toLower := by
              rw [List.map_append]
          _ = pat.map Char.toLower ++ t.map Char.toLower := by
              rw [hpr, hdrop, ih]
          _ = (pat ++ t).map Char.toLower := by rw [List.map_append]
          _ = (c :: cs).map Char.toLower := by rw [ht]
      · rw [if_neg hcond]
        simp only [List.map_cons]
        rw [ih]

lemma replaceAllCIFuel_map_toLower (pat rep : List Char)
    (hpr : rep.map Char.toLower = pat.map Char.toLower) :
    ∀ (fuel : Nat) (s : List Char),
      (replaceAllCIFuel pat rep fuel s).map Char.toLower =
        s.map Char.toLower := by
  intro fuel
  induction fuel with
  | zero => intro s; rfl
  | succ f ih =>
    intro s
    cases s with
    | nil => rfl
    | cons c cs =>
      rw [replaceAllCIFuel]
      by_cases hcond : ((c :: cs).take pat.length).map Char.toLower =
          pat.map Char.toLower ∧ pat ≠ []
      · rw [if_pos hcond]
        calc (rep ++
              replaceAllCIFuel pat rep f ((c :: cs).drop pat.length)).map
              Char.toLower
            = rep.map Char.toLower ++
                (replaceAllCIFuel pat rep f
                    ((c :: cs).drop pat.length)).map Char.toLower := by
              rw [List.map_append]
          _ = ((c :: cs).take pat.length).map Char.toLower ++
                ((c :: cs).drop pat.length).map Char.toLower := by
              rw [hpr, ih, hcond.1]
          _ = ((c :: cs).take pat.length ++
                (c :: cs).drop pat.length).map Char.toLower := by
              rw [List.map_append]
          _ = (c :: cs).map Char.toLower := by
              rw [List.take_append_drop]
      · rw [if_neg hcond]
        simp only [List.map_cons]
        rw [ih]

lemma labelChars_eq_toLower (s : List Char) :
    labelChars s = s.map Char.toLower :=
  replaceAllFuel_map_toLower "SPEAKER_".data "speaker_".data
    (by rfl) s.length s

lemma specLabelChars_eq_toLower (s : List Char) :
    specLabelChars s = s.map Char.toLower :=
  replaceAllCIFuel_map_toLower "SPEAKER_".data "speaker_".data
    (by rfl) s.length s

/-- The source's case-sensitive replace-then-lowercase and the spec's
case-insensitive replace-then-lowercase agree on every identity (both equal
plain lowercasing, because the replacement string is exactly the lowercase
image of the pattern). -/
lemma labelOf_eq_specLabel (speaker : String) :
    labelOf speaker = specLabel speaker := by
  unfold labelOf specLabel
  rw [labelChars_eq_toLower, specLabelChars_eq_toLower]

/-- `sorted(set(seg["speaker"] for seg in segments if seg["speaker"] !=
"unknown"))`: the sorted list of distinct non-`"unknown"` speakers.  (Python
builds an unordered set and sorts it; filtering, de-duplicating, then
sorting yields the same list, which is determined by membership, nodup and
sortedness.) -/
def speakersOf (segs : OutSegments) : List String :=
  List.insertionSort (· ≤ ·)
    (((outSpeakers segs).filter (fun s => s ≠ "unknown")).dedup)

/-- `process_transcription(transcription, diarization, merge_speakers=True)`
from `src/merge.py` (progress printing and the final summary statistics are
diagnostics only and produce no output fields). -/
def process_transcription (transcription : Transcription)
    (diarization : List DiarTurn) (merge_speakers : Bool) : CombinedResult :=
  let diarization2 := merge_nearby_diarization diarization (1/2)
  let whisper_segments := transcription.segments.getD []
  let aligned :=
    align_whisper_segments_with_speakers whisper_segments diarization2
  let segments := if merge_speakers then
      OutSegments.merged (merge_consecutive_speaker_segments aligned)
    else OutSegments.plain aligned
  let overlaps := find_overlaps diarization2 (1/10)
  let speakers := speakersOf segments
  { metadata := { duration := transcription.duration.getD 0,
                  language := transcription.language.getD "unknown",
                  original_text := transcription.text.getD "" },
    speakers := speakers.map
      (fun speaker => (speaker, { label := labelOf speaker, color := none })),
    segments := segments,
    overlaps := overlaps,
    words := transcription.words.getD [] }

lemma speakersOf_sorted (segs : OutSegments) :
    (speakersOf segs).Sorted (· ≤ ·) :=
  List.sorted_insertionSort _ _

lemma speakersOf_nodup (segs : OutSegments) : (speakersOf segs).Nodup :=
  (List.perm_insertionSort _ _).symm.nodup
    (List.nodup_dedup _)

lemma mem_speakersOf (segs : OutSegments) (s : String) :
    s ∈ speakersOf segs ↔ s ≠ "unknown" ∧ s ∈ outSpeakers segs := by
  rw [speakersOf, (List.perm_insertionSort _ _).mem_iff, List.mem_dedup,
    List.mem_filter]
  simp [and_comm]

/-- C9: the speaker registry of the combined result is keyed by exactly the
distinct non-`"unknown"` speakers appearing in the final segments, sorted by
identity string; every speaker's label equals the spec's transformation (the
fixed prefix `"SPEAKER_"` replaced case-insensitively, then lowercased) —
which coincides with the source's case-sensitive replace-then-lowercase —
and identity `"SPEAKER_00"` gets label `"speaker_00"`. -/
theorem C9_speaker_registry (transcription : Transcription)
    (diarization : List DiarTurn) (merge_speakers : Bool) :
    ((process_transcription transcription diarization
        merge_speakers).speakers.map Prod.fst).Sorted (· ≤ ·) ∧
    ((process_transcription transcription diarization
        merge_speakers).speakers.map Prod.fst).Nodup ∧
    (∀ s : String,
      s ∈ (process_transcription transcription diarization
          merge_speakers).speakers.map Prod.fst ↔
        (s ≠ "unknown" ∧ s ∈ outSpeakers
          (process_transcription transcription diarization
            merge_speakers).segments)) ∧
    ((process_transcription transcription diarization
        merge_speakers).speakers.map (fun p => p.2.label) =
      (process_transcription transcription diarization
        merge_speakers).speakers.map (fun p => specLabel p.1)) ∧
    labelOf "SPEAKER_00" = "speaker_00" := by
  have hspk : (process_transcription transcription diarization
      merge_speakers).speakers =
      (speakersOf ((process_transcription transcription diarization
        merge_speakers).segments)).map
        (fun speaker =>
          (speaker, { label := labelOf speaker, color := none })) := rfl
  have hmap : (process_transcription transcription diarization
      merge_speakers).speakers.map Prod.fst =
      speakersOf ((process_transcription transcription diarization
        merge_speakers).segments) := by
    rw [hspk, List.map_map]
    show List.map (fun s => s) _ = _
    exact List.map_id _
  refine ⟨?_, ?_, ?_, ?_, ?_⟩
  · rw [hmap]
    exact speakersOf_sorted _
  · rw [hmap]
    exact speakersOf_nodup _
  · intro s
    rw [hmap]
    exact mem_speakersOf _ s
  · rw [hspk, List.map_map, List.map_map]
    congr 1
    funext s
    show labelOf s = specLabel s
    exact labelOf_eq_specLabel s
  · rfl

/-- C10: every top-level transcript key is read with a default, so a
transcript missing `duration`, `language`, `text`, `words` or `segments`
cannot make the orchestrator raise; the combined result carries `0`,
`"unknown"`, `""`, `[]` and (via an empty segment list) empty segments
respectively. -/
theorem C10_missing_keys_defaults (transcription : Transcription)
    (diarization : List DiarTurn) (merge_speakers : Bool) :
    (transcription.duration = none →
      (process_transcription transcription diarization
        merge_speakers).metadata.duration = 0) ∧
    (transcription.language = none →
      (process_transcription transcription diarization
        merge_speakers).metadata.language = "unknown") ∧
    (transcription.text = none →
      (process_transcription transcription diarization
        merge_speakers).metadata.original_text = "") ∧
    (transcription.words = none →
      (process_transcription transcription diarization
        merge_speakers).words = []) ∧
    (transcription.segments = none →
      (process_transcription transcription diarization
        merge_speakers).segments =
        (if merge_speakers then OutSegments.merged []
         else OutSegments.plain [])) := by
  refine ⟨?_, ?_, ?_, ?_, ?_⟩ <;> intro h
  · simp [process_transcription, h]
  · simp [process_transcription, h]
  · simp [process_transcription, h]
  · simp [process_transcription, h]
  · simp [process_transcription, h, align_whisper_segments_with_speakers,
      merge_consecutive_speaker_segments]

/-- C10 witness: the all-keys-missing transcript yields duration `0`,
language `"unknown"`, empty original text, no words and empty merged
segments. -/
theorem C10_missing_keys_defaults_witness :
    (process_transcription ⟨none, none, none, none, none⟩ []
      true).metadata.duration = 0 ∧
    (process_transcription ⟨none, none, none, none, none⟩ []
      true).metadata.language = "unknown" ∧
    (process_transcription ⟨none, none, none, none, none⟩ []
      true).metadata.original_text = "" ∧
    (process_transcription ⟨none, none, none, none, none⟩ []
      true).words = [] ∧
    (process_transcription ⟨none, none, none, none, none⟩ []
      true).segments = OutSegments.merged [] := by
  have h := C10_missing_keys_defaults ⟨none, none, none, none, none⟩ [] true
  exact ⟨h.1 rfl, h.2.1 rfl, h.2.2.1 rfl, h.2.2.2.1 rfl,
    by simpa using h.2.2.2.2 rfl⟩
